import Mathlib

/-!
A shallow embedding of `src/lib/StringScanner.ts` (the string scanner of a
small XML parser).  JS strings are modelled as lists of UTF-16 code units
(`List Nat`); the spread operator `[...string]` is modelled by `strToChars`,
which groups a high surrogate followed by a low surrogate into one logical
character.  JS `undefined` arising from out-of-range array reads is modelled
with `Option`, and the numeric coercions JS applies to `undefined`
(`ToIntegerOrInfinity(undefined) = 0` for `slice` / `indexOf` arguments and
`RegExp.lastIndex`) are made explicit with `Option.getD 0`.
-/

namespace ParseXml

/-- High surrogate code unit (U+D800..U+DBFF). -/
def isHighSurrogate (u : Nat) : Bool := decide (0xD800 ≤ u ∧ u ≤ 0xDBFF)

/-- Low surrogate code unit (U+DC00..U+DFFF). -/
def isLowSurrogate (u : Nat) : Bool := decide (0xDC00 ≤ u ∧ u ≤ 0xDFFF)

/-- JS `[...string]`: split a string into logical characters (code points);
a high surrogate immediately followed by a low surrogate forms one
two-unit character, every other unit is a one-unit character. -/
def strToChars : List Nat → List (List Nat)
  | [] => []
  | [a] => [[a]]
  | a :: b :: rest =>
    if isHighSurrogate a && isLowSurrogate b then [a, b] :: strToChars rest
    else [a] :: strToChars (b :: rest)

/-- JS `string.replace(/[\uD800-\uDBFF][\uDC00-\uDFFF]/g, '_')`:
replace every high-low surrogate pair by the single unit `'_'` (0x5F). -/
def replaceSurrogatePairs : List Nat → List Nat
  | [] => []
  | [a] => [a]
  | a :: b :: rest =>
    if isHighSurrogate a && isLowSurrogate b then 0x5F :: replaceSurrogatePairs rest
    else a :: replaceSurrogatePairs (b :: rest)

/-- The multibyte branch of the constructor loop: walk the characters left to
right recording the running byte offset of each. -/
def byteOffsets : List (List Nat) → Nat → List Nat
  | [], _ => []
  | c :: rest, b => b :: byteOffsets rest (b + c.length)

/-- JS array read `l[i]`: `undefined` (`none`) when out of range or negative. -/
def jsGet {α : Type} (l : List α) (i : Int) : Option α :=
  if i < 0 then none else l[i.toNat]?

/-- JS `string.slice(start, stop)` for possibly-`undefined` arguments:
`undefined` start is coerced to 0 and `undefined` stop to the string length. -/
def jsSlice (s : List Nat) (start stop : Option Nat) : List Nat :=
  (s.take (stop.getD s.length)).drop (start.getD 0)

/-- JS `string.indexOf(pat, start)`: index of the first occurrence of `pat`
at or after `min start s.length`, or `-1` when there is none. -/
def jsIndexOf (s pat : List Nat) (start : Nat) : Int :=
  match (List.range (s.length + 1)).find?
      (fun j => decide (min start s.length ≤ j) && ((s.drop j).take pat.length == pat)) with
  | some j => (j : Int)
  | none => -1

/-- State of a `StringScanner`.  All fields except `charIndex` are set once by
the constructor and never mutated; `charIndex` is a JS number and is modelled
as `Int` because `advance` can drive it negative. -/
structure StringScanner where
  string : List Nat
  chars : List (List Nat)
  charCount : Nat
  charIndex : Int
  charsToBytes : List Nat
  multiByteMode : Bool
  deriving DecidableEq, Repr

/-- The `StringScanner` constructor: decompose the input into logical
characters; when the character count equals the unit count the char-to-byte
table is the identity, otherwise it is built by the running-offset loop and
`multiByteMode` is set. -/
def mkScanner (string : List Nat) : StringScanner :=
  let chars := strToChars string
  let charCount := chars.length
  let charsToBytes :=
    if charCount = string.length then List.range charCount
    else byteOffsets chars 0
  { string := string, chars := chars, charCount := charCount, charIndex := 0,
    charsToBytes := charsToBytes, multiByteMode := charCount != string.length }

/-- `get isEnd`: `this.charIndex >= this.charCount`. -/
def isEnd (sc : StringScanner) : Bool := decide ((sc.charCount : Int) ≤ sc.charIndex)

/-- `_charLength(string)`: the number of logical characters in `string`,
computed by replacing surrogate pairs when in multibyte mode. -/
def charLength (sc : StringScanner) (s : List Nat) : Nat :=
  if s.length < 2 || !sc.multiByteMode then s.length
  else (replaceSurrogatePairs s).length

/-- `advance(count)`: `charIndex = Math.min(charCount, charIndex + count)`. -/
def advance (sc : StringScanner) (count : Int) : StringScanner :=
  { sc with charIndex := min (sc.charCount : Int) (sc.charIndex + count) }

/-- `peek(count)`: the next `count` characters without advancing.  A single
character is a direct array lookup (an out-of-range lookup is JS `undefined`;
it is only reachable from a negative `charIndex` and is modelled as the empty
string); otherwise a slice between two byte offsets, where an out-of-range
end offset is `undefined` and `slice` then runs to the end of the string. -/
def peek (sc : StringScanner) (count : Int) : List Nat :=
  if (sc.charCount : Int) ≤ sc.charIndex then []
  else if count = 1 then (jsGet sc.chars sc.charIndex).getD []
  else jsSlice sc.string (jsGet sc.charsToBytes sc.charIndex)
        (jsGet sc.charsToBytes (sc.charIndex + count))

/-- `consume(count)`: peek then advance, returning the peeked string. -/
def consume (sc : StringScanner) (count : Int) : List Nat × StringScanner :=
  let chars := peek sc count
  (chars, advance sc count)

/-- `reset(index)`: absolute seek clamped to the end for a nonnegative index,
relative rewind clamped to the start for a negative index. -/
def reset (sc : StringScanner) (index : Int) : StringScanner :=
  { sc with charIndex :=
      if 0 ≤ index then min (sc.charCount : Int) index
      else max 0 (sc.charIndex + index) }

/-- The `while (!this.isEnd() && fn(this.peek())) this.advance();` loop of
`consumeMatchFn`. -/
def consumeMatchFnLoop (sc : StringScanner) (f : List Nat → Bool) : StringScanner :=
  if sc.charIndex < (sc.charCount : Int) ∧ f (peek sc 1) = true then
    consumeMatchFnLoop (advance sc 1) f
  else sc
termination_by (( (sc.charCount : Int) - sc.charIndex).toNat)
decreasing_by
  simp only [advance]
  omega

/-- `consumeMatchFn(fn)`: consume characters while the predicate holds,
returning the consumed span (a byte-offset slice) or the empty string. -/
def consumeMatchFn (sc : StringScanner) (f : List Nat → Bool) : List Nat × StringScanner :=
  let startIndex := sc.charIndex
  let sc' := consumeMatchFnLoop sc f
  if startIndex < sc'.charIndex then
    (jsSlice sc'.string (jsGet sc'.charsToBytes startIndex) (jsGet sc'.charsToBytes sc'.charIndex),
     sc')
  else ([], sc')

/-- `consumeStringFast(stringToConsume)`: single-unit literal match; compares
`peek()` with `stringToConsume[0]` (JS `undefined` when the literal is empty,
and a string is never `===` to `undefined`), then the full literal. -/
def consumeStringFast (sc : StringScanner) (stringToConsume : List Nat) :
    List Nat × StringScanner :=
  if (match stringToConsume[0]? with
      | some u => peek sc 1 == [u]
      | none => false) then
    let length := stringToConsume.length
    if length = 1 then (stringToConsume, advance sc 1)
    else if peek sc (length : Int) == stringToConsume then
      (stringToConsume, advance sc (length : Int))
    else ([], sc)
  else ([], sc)

/-- `consumeString(stringToConsume)`: try the fast path (JS truthiness of the
returned string = non-emptiness); on failure, in multibyte mode, re-peek by
the literal's logical length when that differs from its unit length. -/
def consumeString (sc : StringScanner) (stringToConsume : List Nat) :
    List Nat × StringScanner :=
  let fast := consumeStringFast sc stringToConsume
  if fast.1 != [] then (stringToConsume, fast.2)
  else if !fast.2.multiByteMode then ([], fast.2)
  else
    let length := stringToConsume.length
    let charLengthToMatch := charLength fast.2 stringToConsume
    if charLengthToMatch != length
        && stringToConsume == peek fast.2 (charLengthToMatch : Int) then
      (stringToConsume, advance fast.2 (charLengthToMatch : Int))
    else ([], fast.2)

/-- A JS `RegExp` as the scanner uses it: its two flags, its mutable
`lastIndex` (JS can hold `undefined` there, modelled as `none`), and a pure
match function `exec string start` returning the match array (list of
captured strings, element 0 the full match) and the match index, or `none`.
`exec` receives the `ToLength`-coerced `lastIndex` as its `start`. -/
structure JSRegExp where
  sticky : Bool
  globalFlag : Bool
  lastIndex : Option Nat
  exec : List Nat → Nat → Option (List (List Nat) × Nat)

/-- `consumeMatch(regex)`: throws unless the sticky flag is set; writes the
byte offset of the current position (JS `undefined` past the end) to
`lastIndex`, executes the regex (which coerces `undefined` to 0 and updates
`lastIndex` itself: 0 on failure, the match end on success), and advances by
the logical length of the matched text. -/
def consumeMatch (sc : StringScanner) (regex : JSRegExp) :
    Except String (List Nat × StringScanner × JSRegExp) :=
  if !regex.sticky then .error "regex must have a sticky flag (y)" else
  let regex1 := { regex with lastIndex := jsGet sc.charsToBytes sc.charIndex }
  match regex1.exec sc.string (regex1.lastIndex.getD 0) with
  | none => .ok ([], sc, { regex1 with lastIndex := some 0 })
  | some (result, idx) =>
    let regex2 := { regex1 with lastIndex := some (idx + (result.headD []).length) }
    if result.length = 0 then .ok ([], sc, regex2)
    else
      let m := result.headD []
      .ok (m, advance sc ((charLength sc m : Nat) : Int), regex2)

/-- `consumeUntilMatch(regex)`: throws unless the global flag is set; writes
the current byte offset to `lastIndex`, searches, and when the match index
differs from that byte offset (a JS `===` against possibly-`undefined`)
consumes the text strictly before the match. -/
def consumeUntilMatch (sc : StringScanner) (regex : JSRegExp) :
    Except String (List Nat × StringScanner × JSRegExp) :=
  if !regex.globalFlag then .error "regex must have a global flag (g)" else
  let byteIndex := jsGet sc.charsToBytes sc.charIndex
  let regex1 := { regex with lastIndex := byteIndex }
  match regex1.exec sc.string (byteIndex.getD 0) with
  | none => .ok ([], sc, { regex1 with lastIndex := some 0 })
  | some (result, idx) =>
    let regex2 := { regex1 with lastIndex := some (idx + (result.headD []).length) }
    if byteIndex == some idx then .ok ([], sc, regex2)
    else
      let r := jsSlice sc.string byteIndex (some idx)
      .ok (r, advance sc ((charLength sc r : Nat) : Int), regex2)

/-- `consumeUntilString(searchString)`: look the literal up from the current
byte offset (JS `undefined` past the end, coerced to 0 by `indexOf`), and
consume the text strictly before an occurrence found at a positive offset. -/
def consumeUntilString (sc : StringScanner) (searchString : List Nat) :
    List Nat × StringScanner :=
  let byteIndex := jsGet sc.charsToBytes sc.charIndex
  let matchByteIndex := jsIndexOf sc.string searchString (byteIndex.getD 0)
  if matchByteIndex ≤ 0 then ([], sc)
  else
    let r := jsSlice sc.string byteIndex (some matchByteIndex.toNat)
    (r, advance sc ((charLength sc r : Nat) : Int))

/-- ASCII digit code unit. -/
def isDigitU (u : Nat) : Bool := decide (0x30 ≤ u ∧ u ≤ 0x39)

/-- `exec` of the sticky regex `/\d+/y`: a maximal digit run starting exactly
at the search start, or `none`. -/
def digitsStickyExec (s : List Nat) (i : Nat) : Option (List (List Nat) × Nat) :=
  let run := (s.drop i).takeWhile isDigitU
  if run.isEmpty then none else some ([run], i)

/-- The sticky regex `/\d+/y`. -/
def digitsSticky : JSRegExp :=
  { sticky := true, globalFlag := false, lastIndex := some 0, exec := digitsStickyExec }

/-- `exec` of the global regex `/\d+/g`: the maximal digit run starting at
the first digit at or after the search start, or `none`. -/
def digitsGlobalExec (s : List Nat) (i : Nat) : Option (List (List Nat) × Nat) :=
  match (List.range (s.length + 1)).find?
      (fun j => decide (i ≤ j) && isDigitU ((s.drop j).headD 0)) with
  | some j => some ([(s.drop j).takeWhile isDigitU], j)
  | none => none

/-- The global regex `/\d+/g`. -/
def digitsGlobal : JSRegExp :=
  { sticky := false, globalFlag := true, lastIndex := some 0, exec := digitsGlobalExec }

/-- Whether an `Except` result is a thrown error. -/
def isErr {ε α : Type} : Except ε α → Bool
  | .error _ => true
  | .ok _ => false

/-- The returned string of a regex-consuming operation (`none` on a throw). -/
def excVal (x : Except String (List Nat × StringScanner × JSRegExp)) : Option (List Nat) :=
  x.toOption.map (fun p => p.1)

/-- The resulting position of a regex-consuming operation (`none` on a throw). -/
def excIdx (x : Except String (List Nat × StringScanner × JSRegExp)) : Option Int :=
  x.toOption.map (fun p => p.2.1.charIndex)

/-- One call into the scanner's public mutating interface, for stating
properties of arbitrary operation sequences. -/
inductive ScanOp where
  | advanceOp (n : Int)
  | resetOp (n : Int)
  | peekOp (n : Int)
  | consumeOp (n : Int)
  | consumeMatchFnOp (f : List Nat → Bool)
  | consumeStringOp (l : List Nat)
  | consumeStringFastOp (l : List Nat)
  | consumeMatchOp (r : JSRegExp)
  | consumeUntilMatchOp (r : JSRegExp)
  | consumeUntilStringOp (l : List Nat)

/-- The scanner-state effect of one operation (a thrown contract error leaves
the scanner untouched; `peek` never mutates). -/
def applyOp (sc : StringScanner) : ScanOp → StringScanner
  | .advanceOp n => advance sc n
  | .resetOp n => reset sc n
  | .peekOp _ => sc
  | .consumeOp n => (consume sc n).2
  | .consumeMatchFnOp f => (consumeMatchFn sc f).2
  | .consumeStringOp l => (consumeString sc l).2
  | .consumeStringFastOp l => (consumeStringFast sc l).2
  | .consumeMatchOp r =>
    match consumeMatch sc r with
    | .ok p => p.2.1
    | .error _ => sc
  | .consumeUntilMatchOp r =>
    match consumeUntilMatch sc r with
    | .ok p => p.2.1
    | .error _ => sc
  | .consumeUntilStringOp l => (consumeUntilString sc l).2

/-- Run a sequence of operations. -/
def runOps (sc : StringScanner) (ops : List ScanOp) : StringScanner :=
  List.foldl applyOp sc ops

/-- The argument restriction under which the position invariant holds:
`advance` and `consume` receive nonnegative counts (every other operation may
take any argument). -/
def opOK : ScanOp → Prop
  | .advanceOp n => 0 ≤ n
  | .consumeOp n => 0 ≤ n
  | _ => True

/-! ### Properties of the character decomposition -/

theorem strToChars_flatten (s : List Nat) : (strToChars s).flatten = s := by
  induction s using strToChars.induct with
  | case1 => rfl
  | case2 a => rfl
  | case3 a b rest h ih => simp [strToChars, h, ih]
  | case4 a b rest h ih => simp [strToChars, h, ih]

theorem mem_strToChars_of (s : List Nat) :
    ∀ c ∈ strToChars s,
      (∃ a, c = [a]) ∨
        ∃ a b, c = [a, b] ∧ (isHighSurrogate a && isLowSurrogate b) = true := by
  induction s using strToChars.induct with
  | case1 => simp [strToChars]
  | case2 a =>
    intro c hc
    simp [strToChars] at hc
    exact Or.inl ⟨a, hc⟩
  | case3 a b rest h ih =>
    intro c hc
    simp only [strToChars, h, if_pos, List.mem_cons] at hc
    rcases hc with hc | hc
    · exact Or.inr ⟨a, b, hc, h⟩
    · exact ih c hc
  | case4 a b rest h ih =>
    intro c hc
    rw [strToChars, if_neg h] at hc
    rcases List.mem_cons.mp hc with hc2 | hc2
    · exact Or.inl ⟨a, hc2⟩
    · exact ih c hc2

theorem mem_strToChars {s c : List Nat} (hc : c ∈ strToChars s) :
    (∃ a, c = [a]) ∨
      ∃ a b, c = [a, b] ∧ (isHighSurrogate a && isLowSurrogate b) = true :=
  mem_strToChars_of s c hc

theorem strToChars_ne_nil {s c : List Nat} (hc : c ∈ strToChars s) : c ≠ [] := by
  rcases mem_strToChars hc with ⟨a, rfl⟩ | ⟨a, b, rfl, _⟩ <;> simp

theorem one_le_length_mem_strToChars {s c : List Nat} (hc : c ∈ strToChars s) :
    1 ≤ c.length := by
  rcases mem_strToChars hc with ⟨a, rfl⟩ | ⟨a, b, rfl, _⟩ <;> simp

theorem replaceSurrogatePairs_length (s : List Nat) :
    (replaceSurrogatePairs s).length = (strToChars s).length := by
  induction s using strToChars.induct with
  | case1 => rfl
  | case2 a => rfl
  | case3 a b rest h ih => simp [replaceSurrogatePairs, strToChars, h, ih]
  | case4 a b rest h ih => simp [replaceSurrogatePairs, strToChars, h, ih]

theorem strToChars_length_le (s : List Nat) : (strToChars s).length ≤ s.length := by
  induction s using strToChars.induct with
  | case1 => simp [strToChars]
  | case2 a => simp [strToChars]
  | case3 a b rest h ih => simp [strToChars, h]; omega
  | case4 a b rest h ih => simp [strToChars, h] at ih ⊢; omega

/-- When the character count equals the unit count, every character is a
single unit. -/
theorem all_single_of_count_eq (s : List Nat) :
    (strToChars s).length = s.length → ∀ c ∈ strToChars s, c.length = 1 := by
  induction s using strToChars.induct with
  | case1 => simp [strToChars]
  | case2 a => simp [strToChars]
  | case3 a b rest hp ih =>
    intro h
    exfalso
    have := strToChars_length_le rest
    simp [strToChars, hp] at h
    omega
  | case4 a b rest hp ih =>
    intro h c hc
    rw [strToChars, if_neg hp] at h hc
    simp only [List.length_cons] at h
    rcases List.mem_cons.mp hc with rfl | hc2
    · rfl
    · exact ih (by simp only [List.length_cons] at h ⊢; omega) c hc2

/-- A string all of whose characters are single units has as many characters
as units. -/
theorem count_eq_of_all_single {s : List Nat}
    (h : ∀ c ∈ strToChars s, c.length = 1) : (strToChars s).length = s.length := by
  have := strToChars_flatten s
  calc (strToChars s).length = ((strToChars s).map List.length).sum := by
        rw [List.map_congr_left h]; simp [List.sum_replicate, List.map_const']
    _ = (strToChars s).flatten.length := (List.length_flatten _).symm
    _ = s.length := by rw [this]

/-- Total unit length of the first `i` characters: the byte offset at which
character `i` starts. -/
def prefixLen (cs : List (List Nat)) (i : Nat) : Nat :=
  ((cs.map List.length).take i).sum

@[simp] theorem prefixLen_zero (cs : List (List Nat)) : prefixLen cs 0 = 0 := rfl

theorem prefixLen_flatten_take (cs : List (List Nat)) (i : Nat) :
    ((cs.take i).flatten).length = prefixLen cs i := by
  rw [List.length_flatten, prefixLen, List.map_take]

theorem prefixLen_succ (cs : List (List Nat)) (i : Nat) (h : i < cs.length) :
    prefixLen cs (i + 1) = prefixLen cs i + (cs.getD i []).length := by
  unfold prefixLen
  rw [List.sum_take_succ _ i (by simpa using h), List.getElem_map,
    List.getD_eq_getElem cs [] h]

theorem flatten_split (cs : List (List Nat)) (i : Nat) :
    cs.flatten = (cs.take i).flatten ++ (cs.drop i).flatten := by
  rw [← List.flatten_append, List.take_append_drop]

theorem take_flatten_of_prefixLen (cs : List (List Nat)) (i : Nat) :
    cs.flatten.take (prefixLen cs i) = (cs.take i).flatten := by
  rw [flatten_split cs i, ← prefixLen_flatten_take cs i, List.take_left]

theorem drop_flatten_of_prefixLen (cs : List (List Nat)) (i : Nat) :
    cs.flatten.drop (prefixLen cs i) = (cs.drop i).flatten := by
  rw [flatten_split cs i, ← prefixLen_flatten_take cs i, List.drop_left]

theorem flatten_length_all_single {cs : List (List Nat)}
    (h : ∀ c ∈ cs, c.length = 1) : cs.flatten.length = cs.length := by
  rw [List.length_flatten, List.map_congr_left h]
  simp

theorem prefixLen_all_single {cs : List (List Nat)} (h : ∀ c ∈ cs, c.length = 1)
    {i : Nat} (hi : i ≤ cs.length) : prefixLen cs i = i := by
  rw [prefixLen, List.map_congr_left h, ← List.map_take]
  simp [min_eq_left hi]

theorem byteOffsets_length (cs : List (List Nat)) (b : Nat) :
    (byteOffsets cs b).length = cs.length := by
  induction cs generalizing b with
  | nil => rfl
  | cons c rest ih => simp [byteOffsets, ih]

theorem byteOffsets_getElem? (cs : List (List Nat)) (b i : Nat) :
    (byteOffsets cs b)[i]? =
      if i < cs.length then some (b + prefixLen cs i) else none := by
  induction cs generalizing b i with
  | nil => simp [byteOffsets]
  | cons c rest ih =>
    cases i with
    | zero => simp [byteOffsets]
    | succ j =>
      simp only [byteOffsets, List.getElem?_cons_succ, ih (b + c.length) j,
        List.length_cons, prefixLen, List.map_cons, List.take_succ_cons,
        List.sum_cons]
      split <;> split <;> first | (congr 1; omega) | rfl

@[simp] theorem mkScanner_string (src : List Nat) : (mkScanner src).string = src := rfl

@[simp] theorem mkScanner_chars (src : List Nat) :
    (mkScanner src).chars = strToChars src := rfl

@[simp] theorem mkScanner_charCount (src : List Nat) :
    (mkScanner src).charCount = (strToChars src).length := rfl

@[simp] theorem mkScanner_charIndex (src : List Nat) :
    (mkScanner src).charIndex = 0 := rfl

@[simp] theorem mkScanner_multiByteMode (src : List Nat) :
    (mkScanner src).multiByteMode = ((strToChars src).length != src.length) := rfl

theorem mkScanner_charsToBytes_getElem? (src : List Nat) (i : Nat) :
    (mkScanner src).charsToBytes[i]? =
      if i < (strToChars src).length then some (prefixLen (strToChars src) i)
      else none := by
  show (if (strToChars src).length = src.length then List.range (strToChars src).length
      else byteOffsets (strToChars src) 0)[i]? = _
  split
  · rename_i hid
    split
    · rename_i hi
      rw [List.getElem?_range hi,
        prefixLen_all_single (all_single_of_count_eq src hid) (le_of_lt hi)]
    · rename_i hi
      exact List.getElem?_eq_none (by simpa using hi)
  · simpa using byteOffsets_getElem? (strToChars src) 0 i

theorem mkScanner_charsToBytes_length (src : List Nat) :
    (mkScanner src).charsToBytes.length = (strToChars src).length := by
  show (if (strToChars src).length = src.length then List.range (strToChars src).length
      else byteOffsets (strToChars src) 0).length = _
  split
  · simp
  · exact byteOffsets_length (strToChars src) 0

/-- The decomposition of a nonempty string starts with a character whose
first unit is the string's first unit. -/
theorem strToChars_head_unit (x : Nat) (xs : List Nat) :
    ∃ c0 cs', strToChars (x :: xs) = c0 :: cs' ∧ ∃ t, c0 = x :: t := by
  have hf := strToChars_flatten (x :: xs)
  cases hT : strToChars (x :: xs) with
  | nil => rw [hT] at hf; simp at hf
  | cons c0 cs' =>
    refine ⟨c0, cs', rfl, ?_⟩
    have hc0 : c0 ≠ [] := strToChars_ne_nil (hT ▸ List.mem_cons_self c0 cs')
    rw [hT] at hf
    cases c0 with
    | nil => exact absurd rfl hc0
    | cons u t =>
      simp only [List.flatten_cons, List.cons_append, List.cons.injEq] at hf
      exact ⟨t, by rw [hf.1]⟩

/-- Re-decomposing the flattening of a prefix of a decomposition gives back
that prefix: character boundaries are stable under taking. -/
theorem strToChars_take_flatten (s : List Nat) :
    ∀ m, strToChars (((strToChars s).take m).flatten) = (strToChars s).take m := by
  induction s using strToChars.induct with
  | case1 => simp [strToChars]
  | case2 a =>
    intro m
    cases m with
    | zero => rfl
    | succ k => simp [strToChars]
  | case3 a b rest h ih =>
    intro m
    rw [strToChars, if_pos h]
    cases m with
    | zero => rfl
    | succ k =>
      rw [List.take_succ_cons, List.flatten_cons]
      show strToChars (a :: b :: ((strToChars rest).take k).flatten) = _
      rw [strToChars, if_pos h, ih k]
  | case4 a b rest h ih =>
    intro m
    rw [strToChars, if_neg h]
    cases m with
    | zero => rfl
    | succ k =>
      rw [List.take_succ_cons, List.flatten_cons]
      show strToChars (a :: ((strToChars (b :: rest)).take k).flatten) = _
      obtain ⟨c0, cs', hT, t, hc0⟩ := strToChars_head_unit b rest
      cases k with
      | zero => simp [strToChars]
      | succ j =>
        rw [hT, List.take_succ_cons, List.flatten_cons, hc0, List.cons_append]
        rw [strToChars, if_neg h]
        have := ih (j + 1)
        rw [hT, List.take_succ_cons, List.flatten_cons, hc0, List.cons_append] at this
        rw [this]

/-- Character boundaries are likewise stable under dropping. -/
theorem strToChars_drop_flatten (s : List Nat) :
    ∀ i, strToChars (((strToChars s).drop i).flatten) = (strToChars s).drop i := by
  induction s using strToChars.induct with
  | case1 => simp [strToChars]
  | case2 a =>
    intro i
    cases i with
    | zero => simp [strToChars]
    | succ k => simp [strToChars]
  | case3 a b rest h ih =>
    intro i
    rw [strToChars, if_pos h]
    cases i with
    | zero =>
      rw [List.drop_zero]
      show strToChars (a :: b :: (strToChars rest).flatten) = _
      rw [strToChars_flatten rest, strToChars, if_pos h]
    | succ k => exact ih k
  | case4 a b rest h ih =>
    intro i
    rw [strToChars, if_neg h]
    cases i with
    | zero =>
      rw [List.drop_zero]
      show strToChars (a :: (strToChars (b :: rest)).flatten) = _
      rw [strToChars_flatten (b :: rest), strToChars, if_neg h]
    | succ k => exact ih k

/-- Character boundaries are stable under any contiguous segment. -/
theorem strToChars_seg (s : List Nat) (i m : Nat) :
    strToChars ((((strToChars s).drop i).take m).flatten) =
      ((strToChars s).drop i).take m := by
  have hd := strToChars_drop_flatten s i
  conv_rhs => rw [← hd]
  rw [← strToChars_take_flatten (((strToChars s).drop i).flatten) m, hd]

/-- `_charLength` computes the character count of its argument, provided the
scanner is in multibyte mode whenever the argument needs it. -/
theorem charLength_eq_strToChars_length (sc : StringScanner) (t : List Nat)
    (hmb : sc.multiByteMode = false → (strToChars t).length = t.length) :
    charLength sc t = (strToChars t).length := by
  unfold charLength
  split
  · rename_i hcond
    rw [Bool.or_eq_true, decide_eq_true_iff, Bool.not_eq_true'] at hcond
    rcases hcond with hlt | hmb0
    · match t, hlt with
      | [], _ => rfl
      | [a], _ => rfl
    · exact (hmb hmb0).symm
  · exact replaceSurrogatePairs_length t

/-- The scanner for `src` repositioned at character index `i`: the state of
`mkScanner src` after seeking to `i` (see `scannerAt_reachable`). -/
def scannerAt (src : List Nat) (i : Nat) : StringScanner :=
  { mkScanner src with charIndex := (i : Int) }

theorem scannerAt_zero (src : List Nat) : scannerAt src 0 = mkScanner src := rfl

/-- Every `scannerAt` state with an in-range index is reachable from a fresh
scanner by one `reset`. -/
theorem scannerAt_reachable (src : List Nat) (i : Nat)
    (hi : i ≤ (strToChars src).length) :
    scannerAt src i = reset (mkScanner src) (i : Int) := by
  have h : min (((mkScanner src).charCount : Nat) : Int) (i : Int) = (i : Int) := by
    simp only [mkScanner_charCount]
    exact min_eq_right (by exact_mod_cast hi)
  unfold scannerAt reset
  rw [if_pos (by omega), h]

@[simp] theorem scannerAt_string (src : List Nat) (i : Nat) :
    (scannerAt src i).string = src := rfl

@[simp] theorem scannerAt_chars (src : List Nat) (i : Nat) :
    (scannerAt src i).chars = strToChars src := rfl

@[simp] theorem scannerAt_charCount (src : List Nat) (i : Nat) :
    (scannerAt src i).charCount = (strToChars src).length := rfl

@[simp] theorem scannerAt_charIndex (src : List Nat) (i : Nat) :
    (scannerAt src i).charIndex = (i : Int) := rfl

@[simp] theorem scannerAt_charsToBytes (src : List Nat) (i : Nat) :
    (scannerAt src i).charsToBytes = (mkScanner src).charsToBytes := rfl

@[simp] theorem scannerAt_multiByteMode (src : List Nat) (i : Nat) :
    (scannerAt src i).multiByteMode = ((strToChars src).length != src.length) := rfl

theorem jsGet_charsToBytes_of_lt (src : List Nat) {i : Nat}
    (h : i < (strToChars src).length) :
    jsGet (mkScanner src).charsToBytes (i : Int) =
      some (prefixLen (strToChars src) i) := by
  unfold jsGet
  rw [if_neg (by omega), Int.toNat_ofNat, mkScanner_charsToBytes_getElem?, if_pos h]

theorem jsGet_charsToBytes_of_ge (src : List Nat) {i : Nat}
    (h : (strToChars src).length ≤ i) :
    jsGet (mkScanner src).charsToBytes (i : Int) = none := by
  unfold jsGet
  rw [if_neg (by omega), Int.toNat_ofNat, mkScanner_charsToBytes_getElem?,
    if_neg (by omega)]

theorem flatten_seg_slice (cs : List (List Nat)) (i j : Nat) (hij : i ≤ j) :
    jsSlice cs.flatten (some (prefixLen cs i)) (some (prefixLen cs j)) =
      ((cs.drop i).take (j - i)).flatten := by
  unfold jsSlice
  simp only [Option.getD_some]
  rw [take_flatten_of_prefixLen cs j]
  have h1 : prefixLen (cs.take j) i = prefixLen cs i := by
    unfold prefixLen
    rw [List.map_take, List.take_take, min_eq_left hij]
  rw [← h1, drop_flatten_of_prefixLen (cs.take j) i, List.drop_take]

theorem flatten_seg_slice_none (cs : List (List Nat)) (i : Nat) :
    jsSlice cs.flatten (some (prefixLen cs i)) none = (cs.drop i).flatten := by
  unfold jsSlice
  simp only [Option.getD_some, Option.getD_none, List.take_length]
  exact drop_flatten_of_prefixLen cs i

theorem scanner_slice_seg (src : List Nat) (i j : Nat) (hij : i ≤ j) :
    jsSlice src (some (prefixLen (strToChars src) i))
        (some (prefixLen (strToChars src) j)) =
      (((strToChars src).drop i).take (j - i)).flatten := by
  have h := flatten_seg_slice (strToChars src) i j hij
  rwa [strToChars_flatten src] at h

theorem scanner_slice_seg_none (src : List Nat) (i : Nat) :
    jsSlice src (some (prefixLen (strToChars src) i)) none =
      ((strToChars src).drop i).flatten := by
  have h := flatten_seg_slice_none (strToChars src) i
  rwa [strToChars_flatten src] at h

/-- `_charLength` of the flattening of a character segment is the number of
characters of the segment, in any scanner state whose `multiByteMode` agrees
with construction from `src`. -/
theorem charLength_flatten_seg (sc : StringScanner) (src : List Nat)
    (hmb : sc.multiByteMode = ((strToChars src).length != src.length))
    (i m : Nat) (him : i + m ≤ (strToChars src).length) :
    charLength sc ((((strToChars src).drop i).take m).flatten) = m := by
  rw [charLength_eq_strToChars_length, strToChars_seg]
  · simp only [List.length_take, List.length_drop]
    omega
  · intro h0
    rw [hmb, bne_eq_false_iff_eq] at h0
    have hall := all_single_of_count_eq src h0
    have hseg : ∀ c ∈ ((strToChars src).drop i).take m, c.length = 1 := fun c hc =>
      hall c (List.drop_subset _ _ (List.take_subset _ _ hc))
    rw [strToChars_seg]
    exact (flatten_length_all_single hseg).symm

/-- `peek` at a valid position with a nonnegative count returns the
flattening of the corresponding character segment, clamped at the end. -/
theorem peek_scannerAt (src : List Nat) (i : Nat) (c : Int)
    (hi : i ≤ (strToChars src).length) (hc : 0 ≤ c) :
    peek (scannerAt src i) c =
      (((strToChars src).drop i).take
        (min (strToChars src).length (i + c.toNat) - i)).flatten := by
  unfold peek
  rcases eq_or_lt_of_le hi with rfl | hilt
  · rw [if_pos (by simp)]
    simp [List.drop_length]
  · rw [if_neg (by simp; omega)]
    by_cases hc1 : c = 1
    · rw [if_pos hc1]
      subst hc1
      have hlt : (i : Int) < ((strToChars src).length : Int) := by omega
      show (jsGet (strToChars src) (i : Int)).getD [] = _
      unfold jsGet
      rw [if_neg (by omega), Int.toNat_ofNat, List.getElem?_eq_getElem hilt]
      rw [List.drop_eq_getElem_cons hilt]
      have : min (strToChars src).length (i + (1 : Int).toNat) - i = 1 := by
        simp only [Int.toNat_one]
        omega
      rw [this, List.take_succ_cons, List.take_zero, List.flatten_cons,
        List.flatten_nil, List.append_nil, Option.getD_some]
    · rw [if_neg hc1]
      show jsSlice src (jsGet (mkScanner src).charsToBytes (i : Int))
          (jsGet (mkScanner src).charsToBytes ((i : Int) + c)) = _
      have hcast : (i : Int) + c = ((i + c.toNat : Nat) : Int) := by omega
      rw [jsGet_charsToBytes_of_lt src hilt, hcast]
      by_cases hend : i + c.toNat < (strToChars src).length
      · rw [jsGet_charsToBytes_of_lt src hend,
          scanner_slice_seg src i (i + c.toNat) (by omega)]
        congr 2
        omega
      · rw [jsGet_charsToBytes_of_ge src (by omega),
          scanner_slice_seg_none src i]
        have hmin : min (strToChars src).length (i + c.toNat) - i =
            (strToChars src).length - i := by omega
        rw [hmin, List.take_of_length_le (by simp)]

/-- The logical length of a `peek` result is the clamped count. -/
theorem charLength_peek (src : List Nat) (i : Nat) (c : Int)
    (hi : i ≤ (strToChars src).length) (hc : 0 ≤ c) :
    charLength (scannerAt src i) (peek (scannerAt src i) c) =
      min (strToChars src).length (i + c.toNat) - i := by
  rw [peek_scannerAt src i c hi hc]
  exact charLength_flatten_seg (scannerAt src i) src (by simp) i _ (by omega)

/-- `advance` with a nonnegative count from a valid position clamps to the
character count. -/
theorem advance_scannerAt (src : List Nat) (i : Nat) (c : Int) (hc : 0 ≤ c) :
    advance (scannerAt src i) c =
      scannerAt src (min (strToChars src).length (i + c.toNat)) := by
  unfold advance scannerAt
  congr 1
  simp only [mkScanner_charCount]
  omega

theorem strToChars_ne_nil_of_ne_nil {src : List Nat} (h : src ≠ []) :
    strToChars src ≠ [] := by
  intro h0
  apply h
  rw [← strToChars_flatten src, h0, List.flatten_nil]

/-! ### Claim theorems -/

/-- C1: Index-mapping correctness: for every input string, construction
produces a character decomposition and a char-to-byte table such that (when
the input is non-empty) `charsToBytes[0] == 0`; the entries are
non-decreasing, with `charsToBytes[i+1] - charsToBytes[i]` equal to the
storage length of `chars[i]`; for every logical character index `i`,
`string.slice(charsToBytes[i], charsToBytes[i+1])` (slice to the end of the
string for the last index) equals `chars[i]`; and `multiByteMode` is true
iff the logical character count differs from the storage-unit length of the
input. -/
theorem claim1_index_mapping (src : List Nat) :
    (src ≠ [] → (mkScanner src).charsToBytes[0]? = some 0)
    ∧ (∀ i : Nat, i + 1 < (mkScanner src).charCount →
        (mkScanner src).charsToBytes.getD i 0 ≤
            (mkScanner src).charsToBytes.getD (i + 1) 0
        ∧ (mkScanner src).charsToBytes.getD (i + 1) 0
            - (mkScanner src).charsToBytes.getD i 0
            = ((mkScanner src).chars.getD i []).length)
    ∧ (∀ i : Nat, i < (mkScanner src).charCount →
        jsSlice (mkScanner src).string ((mkScanner src).charsToBytes[i]?)
            ((mkScanner src).charsToBytes[i + 1]?)
          = (mkScanner src).chars.getD i [])
    ∧ ((mkScanner src).multiByteMode = true ↔
        (mkScanner src).charCount ≠ src.length) := by
  refine ⟨?_, ?_, ?_, ?_⟩
  · intro h
    have h0 : 0 < (strToChars src).length :=
      List.length_pos.mpr (strToChars_ne_nil_of_ne_nil h)
    rw [mkScanner_charsToBytes_getElem?, if_pos h0, prefixLen_zero]
  · intro i hi
    simp only [mkScanner_charCount] at hi
    rw [List.getD_eq_getElem?_getD, List.getD_eq_getElem?_getD,
      mkScanner_charsToBytes_getElem?, mkScanner_charsToBytes_getElem?,
      if_pos hi, if_pos (by omega)]
    simp only [Option.getD_some, mkScanner_chars]
    rw [prefixLen_succ (strToChars src) i (by omega)]
    omega
  · intro i hi
    simp only [mkScanner_charCount] at hi
    rw [mkScanner_charsToBytes_getElem?, mkScanner_charsToBytes_getElem?,
      if_pos hi, mkScanner_string, mkScanner_chars,
      List.getD_eq_getElem (strToChars src) [] hi]
    by_cases hi1 : i + 1 < (strToChars src).length
    · rw [if_pos hi1, scanner_slice_seg src i (i + 1) (by omega)]
      rw [List.drop_eq_getElem_cons hi]
      have h1 : i + 1 - i = 0 + 1 := by omega
      rw [h1, List.take_succ_cons, List.take_zero, List.flatten_cons,
        List.flatten_nil, List.append_nil]
    · rw [if_neg hi1, scanner_slice_seg_none src i]
      rw [List.drop_eq_getElem_cons hi,
        List.drop_eq_nil_of_le (show (strToChars src).length ≤ i + 1 by omega),
        List.flatten_cons, List.flatten_nil, List.append_nil]
  · simp [bne_iff_ne]

/-- Witness for C1 on the input `"a💩"` (one single-unit and one two-unit
character). -/
theorem claim1_index_mapping_witness :
    (mkScanner [97, 55357, 56489]).charsToBytes[0]? = some 0
    ∧ ((mkScanner [97, 55357, 56489]).charsToBytes.getD 1 0
        - (mkScanner [97, 55357, 56489]).charsToBytes.getD 0 0
        = ((mkScanner [97, 55357, 56489]).chars.getD 0 []).length)
    ∧ jsSlice (mkScanner [97, 55357, 56489]).string
        ((mkScanner [97, 55357, 56489]).charsToBytes[1]?)
        ((mkScanner [97, 55357, 56489]).charsToBytes[2]?)
        = (mkScanner [97, 55357, 56489]).chars.getD 1 [] :=
  ⟨(claim1_index_mapping [97, 55357, 56489]).1 (by decide),
   ((claim1_index_mapping [97, 55357, 56489]).2.1 0 (by decide)).2,
   (claim1_index_mapping [97, 55357, 56489]).2.2.1 1 (by decide)⟩

/-- `_charLength` of a single-unit-only string is its unit length, in any
scanner state. -/
theorem charLength_of_single (sc : StringScanner) {L : List Nat}
    (h : (strToChars L).length = L.length) : charLength sc L = L.length := by
  unfold charLength
  split
  · rfl
  · rw [replaceSurrogatePairs_length, h]

/-- `consumeStringFast` returns either the literal together with an advance,
or the empty string with the scanner untouched. -/
theorem consumeStringFast_shape (sc : StringScanner) (L : List Nat) :
    (consumeStringFast sc L = (L, advance sc 1) ∧ L ≠ [])
    ∨ (consumeStringFast sc L = (L, advance sc (L.length : Int)) ∧ L ≠ [])
    ∨ consumeStringFast sc L = ([], sc) := by
  unfold consumeStringFast
  split
  · rename_i hguard
    have hL : L ≠ [] := by
      intro h0
      subst h0
      simp at hguard
    dsimp only
    split
    · exact Or.inl ⟨rfl, hL⟩
    · split
      · exact Or.inr (Or.inl ⟨rfl, hL⟩)
      · exact Or.inr (Or.inr rfl)
  · exact Or.inr (Or.inr rfl)

/-- C4: Fast/slow path equivalence: for every literal all of whose characters
occupy a single storage unit, and every scanner state, `consumeStringFast`
and `consumeString` return the identical string and leave the scanner in the
identical state. -/
theorem claim4_fast_slow_equivalence (sc : StringScanner) (L : List Nat)
    (h : (strToChars L).length = L.length) :
    consumeString sc L = consumeStringFast sc L := by
  unfold consumeString
  rcases consumeStringFast_shape sc L with ⟨hf, hL⟩ | ⟨hf, hL⟩ | hf
  · rw [hf]
    simp [hL]
  · rw [hf]
    simp [hL]
  · rw [hf]
    simp only [bne_self_eq_false, Bool.false_eq_true, if_false]
    by_cases hmb : sc.multiByteMode
    · simp [hmb, charLength_of_single sc h]
    · simp [hmb]

/-- Witness for C4: the single-unit literal `"a"` on the input `"ab"`. -/
theorem claim4_fast_slow_equivalence_witness :
    (strToChars [97]).length = [97].length
    ∧ consumeString (mkScanner [97, 98]) [97]
        = consumeStringFast (mkScanner [97, 98]) [97] :=
  ⟨by decide, claim4_fast_slow_equivalence (mkScanner [97, 98]) [97] (by decide)⟩

/-- C7: Eager contract validation: `consumeMatch` throws iff its pattern
lacks the sticky flag and `consumeUntilMatch` throws iff its pattern lacks
the global flag, in every scanner state (the flag test precedes every state
update, so a throw leaves scanner and pattern untouched; all remaining
operations of the embedding are total functions and throw under no
condition). -/
theorem claim7_contract_validation :
    (∀ (sc : StringScanner) (r : JSRegExp),
        isErr (consumeMatch sc r) = true ↔ r.sticky = false)
    ∧ (∀ (sc : StringScanner) (r : JSRegExp),
        isErr (consumeUntilMatch sc r) = true ↔ r.globalFlag = false) := by
  constructor
  · intro sc r
    cases hs : r.sticky
    · simp [consumeMatch, hs, isErr]
    · simp only [consumeMatch, hs, Bool.not_true, Bool.false_eq_true, if_false]
      split
      · simp [isErr]
      · split <;> simp [isErr]
  · intro sc r
    cases hg : r.globalFlag
    · simp [consumeUntilMatch, hg, isErr]
    · simp only [consumeUntilMatch, hg, Bool.not_true, Bool.false_eq_true, if_false]
      split
      · simp [isErr]
      · split <;> simp [isErr]

/-- C10: Caller search-offset noninterference: `consumeMatch` on a sticky
pattern and `consumeUntilMatch` on a global pattern overwrite the pattern's
`lastIndex` with the current byte offset before executing it, so their
entire result is independent of the incoming `lastIndex`. -/
theorem claim10_lastindex_noninterference :
    (∀ (sc : StringScanner) (r : JSRegExp) (l1 l2 : Option Nat),
        r.sticky = true →
        consumeMatch sc { r with lastIndex := l1 }
          = consumeMatch sc { r with lastIndex := l2 })
    ∧ (∀ (sc : StringScanner) (r : JSRegExp) (l1 l2 : Option Nat),
        r.globalFlag = true →
        consumeUntilMatch sc { r with lastIndex := l1 }
          = consumeUntilMatch sc { r with lastIndex := l2 }) := by
  constructor <;> (intro sc r l1 l2 _; rfl)

/-- Witness for C10: the concrete patterns `/\d+/y` and `/\d+/g` with two
different incoming `lastIndex` values. -/
theorem claim10_lastindex_noninterference_witness :
    digitsSticky.sticky = true ∧ digitsGlobal.globalFlag = true
    ∧ consumeMatch (mkScanner [52, 50]) { digitsSticky with lastIndex := some 7 }
        = consumeMatch (mkScanner [52, 50]) { digitsSticky with lastIndex := none }
    ∧ consumeUntilMatch (mkScanner [97, 50]) { digitsGlobal with lastIndex := some 7 }
        = consumeUntilMatch (mkScanner [97, 50]) { digitsGlobal with lastIndex := none } :=
  ⟨rfl, rfl,
   claim10_lastindex_noninterference.1 (mkScanner [52, 50]) digitsSticky
     (some 7) none rfl,
   claim10_lastindex_noninterference.2 (mkScanner [97, 50]) digitsGlobal
     (some 7) none rfl⟩

/-- C3 (code bug, failing input): on `"ab"` at the end position 2 the byte
offset `charsToBytes[2]` is JS `undefined`; `indexOf` coerces it to 0 and
finds `"b"` at offset 1, and `consumeUntilString("b")` returns `"a"` — a
non-empty string it never consumed — instead of the empty string required by
the shared end-of-input policy (the position stays at 2). -/
theorem claim3_end_of_input_bug :
    (advance (mkScanner [97, 98]) 2).charIndex
        = ((mkScanner [97, 98]).charCount : Int)
    ∧ consumeUntilString (advance (mkScanner [97, 98]) 2) [98]
        = ([97], advance (mkScanner [97, 98]) 2)
    ∧ ([97] : List Nat) ≠ [] := by decide

/-- C2 counterexample: on `"42px"` at the end position 4, the sticky
`/\d+/y` has no match at the byte offset of the current position (there is
none; a search there, i.e. at offset 4, fails), yet `consumeMatch` returns
`"42"`: the `undefined` byte offset written to `lastIndex` is coerced to 0,
so the pattern is executed at the start of the input instead. -/
theorem claim2_counterexample :
    (advance (mkScanner [52, 50, 112, 120]) 4).charIndex
        = ((mkScanner [52, 50, 112, 120]).charCount : Int)
    ∧ digitsStickyExec [52, 50, 112, 120] 4 = none
    ∧ excVal (consumeMatch (advance (mkScanner [52, 50, 112, 120]) 4) digitsSticky)
        = some [52, 50] := by decide

/-- C5 counterexample: on `"xy"` at the end position 2,
`consumeUntilString("y")` returns the non-empty `"x"` although the located
occurrence (storage offset 1) lies strictly before the current position —
the `undefined` byte offset of the end position is coerced to 0, so the
search and the slice both restart at the beginning of the string. -/
theorem claim5_counterexample :
    (advance (mkScanner [120, 121]) 2).charIndex
        = ((mkScanner [120, 121]).charCount : Int)
    ∧ consumeUntilString (advance (mkScanner [120, 121]) 2) [121]
        = ([120], advance (mkScanner [120, 121]) 2)
    ∧ ([120] : List Nat) ≠ [] := by decide

/-- C6 counterexample: on `"a"` at position 0 with the negative count `-1`,
`consume` returns `"a"` (whose logical length is 1) but the position becomes
`-1`, not `0 + 1`: `peek(-1)` reads `charsToBytes[-1]` (JS `undefined`), so
the slice runs to the end of the string, while `advance(-1)` moves the
position backwards. -/
theorem claim6_counterexample :
    consume (mkScanner [97]) (-1)
        = ([97], { mkScanner [97] with charIndex := -1 })
    ∧ charLength (mkScanner [97]) [97] = 1
    ∧ (0 : Int) + 1 ≠ -1 := by decide

/-- C8 counterexample: on `"ab"` at position 1, `consume(-1)` returns the
empty string yet moves the position back to 0 — a consuming operation that
returns empty without leaving the position unchanged. -/
theorem claim8_counterexample :
    consume (advance (mkScanner [97, 98]) 1) (-1)
        = ([], { mkScanner [97, 98] with charIndex := 0 })
    ∧ (advance (mkScanner [97, 98]) 1).charIndex = 1 := by decide

/-- C9 counterexample: a single `advance(-1)` on a fresh scanner for `"a"`
drives the position to `-1`, below the lower bound `0` of the claimed
invariant. -/
theorem claim9_counterexample :
    (runOps (mkScanner [97]) [ScanOp.advanceOp (-1)]).charIndex = -1
    ∧ (runOps (mkScanner [97]) [ScanOp.advanceOp (-1)]).charIndex < 0 := by decide

theorem advance_zero_scannerAt (src : List Nat) (i : Nat)
    (hi : i ≤ (strToChars src).length) :
    advance (scannerAt src i) 0 = scannerAt src i := by
  rw [advance_scannerAt src i 0 le_rfl]
  congr 1
  omega

/-- C2 (amended): for every scanner state strictly before the end of input
and every sticky pattern, `consumeMatch` writes the byte offset of the
current position to the pattern's `lastIndex` and executes it against the
full input; a failed exec returns the empty string with the position
unchanged, and an exec returning a match array returns the full match
(element 0, empty when the array is empty) and advances the position by the
logical character length of that match, clamped at the end of input.  On the
input `"  42px"` with `/\d+/y`: at position 2 it returns `"42"` and advances
to position 4, and at position 4 it returns empty with the position still
4. -/
theorem claim2_anchored_match :
    (∀ (src : List Nat) (i : Nat) (r : JSRegExp),
        i < (strToChars src).length → r.sticky = true →
        ∃ b, (mkScanner src).charsToBytes[i]? = some b
        ∧ (r.exec src b = none →
            ∃ r2, consumeMatch (scannerAt src i) r
              = .ok ([], scannerAt src i, r2))
        ∧ (∀ arr idx, r.exec src b = some (arr, idx) →
            ∃ r2, consumeMatch (scannerAt src i) r
              = .ok (arr.headD [],
                  advance (scannerAt src i)
                    ((charLength (scannerAt src i) (arr.headD []) : Nat) : Int),
                  r2)))
    ∧ excVal (consumeMatch (advance (mkScanner [32, 32, 52, 50, 112, 120]) 2)
        digitsSticky) = some [52, 50]
    ∧ excIdx (consumeMatch (advance (mkScanner [32, 32, 52, 50, 112, 120]) 2)
        digitsSticky) = some 4
    ∧ excVal (consumeMatch (advance (mkScanner [32, 32, 52, 50, 112, 120]) 4)
        digitsSticky) = some []
    ∧ excIdx (consumeMatch (advance (mkScanner [32, 32, 52, 50, 112, 120]) 4)
        digitsSticky) = some 4 := by
  refine ⟨?_, by decide, by decide, by decide, by decide⟩
  intro src i r hi hs
  refine ⟨prefixLen (strToChars src) i, ?_, ?_, ?_⟩
  · rw [mkScanner_charsToBytes_getElem?, if_pos hi]
  · intro hexec
    refine ⟨{ r with lastIndex := some 0 }, ?_⟩
    unfold consumeMatch
    rw [hs]
    simp only [Bool.not_true, Bool.false_eq_true, if_false, scannerAt_string,
      scannerAt_charsToBytes, scannerAt_charIndex,
      jsGet_charsToBytes_of_lt src hi, Option.getD_some, hexec]
  · intro arr idx hexec
    unfold consumeMatch
    rw [hs]
    simp only [Bool.not_true, Bool.false_eq_true, if_false, scannerAt_string,
      scannerAt_charsToBytes, scannerAt_charIndex,
      jsGet_charsToBytes_of_lt src hi, Option.getD_some, hexec]
    cases arr with
    | nil =>
      refine ⟨{ r with lastIndex := some (idx + 0) }, ?_⟩
      simp [hs, charLength, advance_zero_scannerAt src i (le_of_lt hi)]
    | cons a t =>
      refine ⟨{ r with lastIndex := some (idx + a.length) }, ?_⟩
      simp [hs]

/-- Witness for C2: applying the anchored-match theorem on `"42"` at
position 0 yields the match `"42"`. -/
theorem claim2_anchored_match_witness :
    excVal (consumeMatch (scannerAt [52, 50] 0) digitsSticky) = some [52, 50] := by
  obtain ⟨b, hb, _, hsome⟩ :=
    claim2_anchored_match.1 [52, 50] 0 digitsSticky (by decide) rfl
  have hb0 : b = 0 := by
    have h0 : (mkScanner [52, 50]).charsToBytes[0]? = some 0 := by decide
    rw [h0] at hb
    exact (Option.some_inj.mp hb.symm)
  obtain ⟨r2, hr⟩ := hsome [[52, 50]] 0 (by rw [hb0]; decide)
  rw [hr]
  rfl

theorem prefixLen_lt_length (src : List Nat) {i : Nat}
    (hi : i < (strToChars src).length) :
    prefixLen (strToChars src) i < src.length := by
  have hsplit := flatten_split (strToChars src) i
  rw [strToChars_flatten src] at hsplit
  have h1 : ((strToChars src).take i).flatten.length = prefixLen (strToChars src) i :=
    prefixLen_flatten_take _ i
  have h2 : ((strToChars src).drop i).flatten ≠ [] := by
    rw [List.drop_eq_getElem_cons hi, List.flatten_cons]
    have hne := strToChars_ne_nil (List.getElem_mem hi)
    intro h0
    rw [List.append_eq_nil] at h0
    exact hne h0.1
  have h3 : 0 < ((strToChars src).drop i).flatten.length := List.length_pos.mpr h2
  have h4 := congrArg List.length hsplit
  rw [List.length_append, h1] at h4
  omega

theorem jsIndexOf_lower (s pat : List Nat) (start : Nat) {k : Nat}
    (h : jsIndexOf s pat start = (k : Int)) : min start s.length ≤ k := by
  unfold jsIndexOf at h
  split at h
  · rename_i j hj
    have hp := List.find?_some hj
    rw [Bool.and_eq_true, decide_eq_true_iff] at hp
    have : j = k := by exact_mod_cast h
    omega
  · exact absurd h (by omega)

/-- C5 (amended): for every scanner state strictly before the end of input
and every search string, `consumeUntilString` locates the first
storage-level occurrence of the string at or after the current byte offset;
if that occurrence starts strictly after the current byte offset it returns
exactly the storage text between the current byte offset and the occurrence
(never consuming the occurrence itself) and advances the position by the
logical character length of that text; if the occurrence is at the current
byte offset, or there is no occurrence, it returns the empty string and the
position is unchanged. -/
theorem claim5_consume_until_string :
    ∀ (src L : List Nat) (i : Nat), i < (strToChars src).length →
    ∃ b, (mkScanner src).charsToBytes[i]? = some b
    ∧ (jsIndexOf src L b = -1 →
        consumeUntilString (scannerAt src i) L = ([], scannerAt src i))
    ∧ (∀ k : Nat, jsIndexOf src L b = (k : Int) → k ≤ b →
        consumeUntilString (scannerAt src i) L = ([], scannerAt src i))
    ∧ (∀ k : Nat, jsIndexOf src L b = (k : Int) → b < k →
        consumeUntilString (scannerAt src i) L
          = (jsSlice src (some b) (some k),
             advance (scannerAt src i)
               ((charLength (scannerAt src i)
                   (jsSlice src (some b) (some k)) : Nat) : Int))) := by
  intro src L i hi
  refine ⟨prefixLen (strToChars src) i,
    by rw [mkScanner_charsToBytes_getElem?, if_pos hi], ?_, ?_, ?_⟩
  · intro hidx
    unfold consumeUntilString
    simp only [scannerAt_string, scannerAt_charsToBytes, scannerAt_charIndex,
      jsGet_charsToBytes_of_lt src hi, Option.getD_some, hidx]
    rw [if_pos (by omega)]
  · intro k hidx hk
    have hblen : prefixLen (strToChars src) i < src.length := prefixLen_lt_length src hi
    have hge := jsIndexOf_lower src L (prefixLen (strToChars src) i) hidx
    rw [min_eq_left (by omega)] at hge
    have hkb : k = prefixLen (strToChars src) i := by omega
    unfold consumeUntilString
    simp only [scannerAt_string, scannerAt_charsToBytes, scannerAt_charIndex,
      jsGet_charsToBytes_of_lt src hi, Option.getD_some, hidx]
    by_cases hk0 : (k : Int) ≤ 0
    · rw [if_pos hk0]
    · rw [if_neg hk0]
      have htoNat : (k : Int).toNat = k := Int.toNat_ofNat k
      rw [htoNat, hkb]
      have hslice : jsSlice src (some (prefixLen (strToChars src) i))
          (some (prefixLen (strToChars src) i)) = [] := by
        unfold jsSlice
        simp only [Option.getD_some]
        apply List.drop_eq_nil_of_le
        rw [List.length_take]
        omega
      rw [hslice]
      have h0 : charLength (scannerAt src i) ([] : List Nat) = 0 := rfl
      rw [h0, Nat.cast_zero, advance_zero_scannerAt src i (le_of_lt hi)]
  · intro k hidx hk
    unfold consumeUntilString
    simp only [scannerAt_string, scannerAt_charsToBytes, scannerAt_charIndex,
      jsGet_charsToBytes_of_lt src hi, Option.getD_some, hidx]
    rw [if_neg (by omega), Int.toNat_ofNat]

/-- Witness for C5 on the scenario-B input `"<a>💩</a>"`: scanning for
`"</a>"` from position 0 returns the five-character `"<a>💩"` and stops
exactly before the closing tag (position 4). -/
theorem claim5_consume_until_string_witness :
    consumeUntilString (scannerAt [60, 97, 62, 55357, 56489, 60, 47, 97, 62] 0)
        [60, 47, 97, 62]
      = ([60, 97, 62, 55357, 56489],
         scannerAt [60, 97, 62, 55357, 56489, 60, 47, 97, 62] 4) := by
  obtain ⟨b, hb, _, _, h3⟩ :=
    claim5_consume_until_string [60, 97, 62, 55357, 56489, 60, 47, 97, 62]
      [60, 47, 97, 62] 0 (by decide)
  have hb0 : b = 0 := by
    have h0 : (mkScanner [60, 97, 62, 55357, 56489, 60, 47, 97, 62]).charsToBytes[0]?
        = some 0 := by decide
    rw [h0] at hb
    exact Option.some_inj.mp hb.symm
  subst hb0
  rw [h3 5 (by decide) (by omega)]
  decide

theorem setIndex_self (sc : StringScanner) : { sc with charIndex := sc.charIndex } = sc :=
  rfl

/-- The `consumeMatchFn` loop only moves `charIndex`, never decreases it, and
never pushes it past `charCount` (unless it already was). -/
theorem consumeMatchFnLoop_spec (sc : StringScanner) (f : List Nat → Bool) :
    ∃ j : Int, consumeMatchFnLoop sc f = { sc with charIndex := j }
      ∧ sc.charIndex ≤ j ∧ j ≤ max sc.charIndex (sc.charCount : Int) := by
  induction sc, f using consumeMatchFnLoop.induct with
  | case1 sc f hguard ih =>
    obtain ⟨j, hj, hj1, hj2⟩ := ih
    rw [consumeMatchFnLoop, if_pos hguard]
    refine ⟨j, ?_, ?_, ?_⟩
    · rw [hj]
      rfl
    · have h2 : sc.charIndex < (sc.charCount : Int) := hguard.1
      simp only [advance] at hj1
      omega
    · simp only [advance] at hj1 hj2
      omega
  | case2 sc f hguard =>
    rw [consumeMatchFnLoop, if_neg hguard]
    exact ⟨sc.charIndex, (setIndex_self sc).symm, le_refl _, le_max_left _ _⟩

theorem advance_state (sc : StringScanner) (c : Int) (hc : 0 ≤ c)
    (h0 : 0 ≤ sc.charIndex) :
    0 ≤ (advance sc c).charIndex
      ∧ (advance sc c).charIndex ≤ (sc.charCount : Int) := by
  simp only [advance]
  omega

theorem consumeStringFast_state (sc : StringScanner) (L : List Nat) :
    (consumeStringFast sc L).2 = sc
    ∨ ∃ n : Nat, (consumeStringFast sc L).2 = advance sc (n : Int) := by
  rcases consumeStringFast_shape sc L with ⟨hf, _⟩ | ⟨hf, _⟩ | hf <;> rw [hf]
  · exact Or.inr ⟨1, by norm_num⟩
  · exact Or.inr ⟨L.length, rfl⟩
  · exact Or.inl rfl

theorem consumeString_state (sc : StringScanner) (L : List Nat) :
    (consumeString sc L).2 = sc
    ∨ ∃ n : Nat, (consumeString sc L).2 = advance sc (n : Int) := by
  unfold consumeString
  rcases consumeStringFast_shape sc L with ⟨hf, hL⟩ | ⟨hf, hL⟩ | hf <;> rw [hf] <;>
    dsimp only
  · rw [if_pos (by simpa [bne_iff_ne] using hL)]
    exact Or.inr ⟨1, by norm_num⟩
  · rw [if_pos (by simpa [bne_iff_ne] using hL)]
    exact Or.inr ⟨L.length, rfl⟩
  · rw [if_neg (by simp)]
    split
    · exact Or.inl rfl
    · split
      · exact Or.inr ⟨charLength sc L, rfl⟩
      · exact Or.inl rfl

theorem consumeMatch_state (sc : StringScanner) (r : JSRegExp) :
    ∀ v sc2 r2, consumeMatch sc r = .ok (v, sc2, r2) →
      sc2 = sc ∨ ∃ n : Nat, sc2 = advance sc (n : Int) := by
  intro v sc2 r2 h
  unfold consumeMatch at h
  cases hs : r.sticky
  · rw [hs] at h
    simp at h
  · rw [hs] at h
    simp only [Bool.not_true, Bool.false_eq_true, if_false] at h
    split at h
    · simp only [Except.ok.injEq, Prod.mk.injEq] at h
      exact Or.inl h.2.1.symm
    · split at h
      · simp only [Except.ok.injEq, Prod.mk.injEq] at h
        exact Or.inl h.2.1.symm
      · simp only [Except.ok.injEq, Prod.mk.injEq] at h
        exact Or.inr ⟨_, h.2.1.symm⟩

theorem consumeUntilMatch_state (sc : StringScanner) (r : JSRegExp) :
    ∀ v sc2 r2, consumeUntilMatch sc r = .ok (v, sc2, r2) →
      sc2 = sc ∨ ∃ n : Nat, sc2 = advance sc (n : Int) := by
  intro v sc2 r2 h
  unfold consumeUntilMatch at h
  cases hg : r.globalFlag
  · rw [hg] at h
    simp at h
  · rw [hg] at h
    simp only [Bool.not_true, Bool.false_eq_true, if_false] at h
    split at h
    · simp only [Except.ok.injEq, Prod.mk.injEq] at h
      exact Or.inl h.2.1.symm
    · split at h
      · simp only [Except.ok.injEq, Prod.mk.injEq] at h
        exact Or.inl h.2.1.symm
      · simp only [Except.ok.injEq, Prod.mk.injEq] at h
        exact Or.inr ⟨_, h.2.1.symm⟩

theorem consumeUntilString_state (sc : StringScanner) (L : List Nat) :
    (consumeUntilString sc L).2 = sc
    ∨ ∃ n : Nat, (consumeUntilString sc L).2 = advance sc (n : Int) := by
  unfold consumeUntilString
  dsimp only
  split
  · exact Or.inl rfl
  · exact Or.inr ⟨_, rfl⟩

/-- Every operation with an admissible argument keeps `0 ≤ charIndex ≤
charCount` and preserves `charCount`. -/
theorem applyOp_bounds (sc : StringScanner) (op : ScanOp) (hok : opOK op)
    (h0 : 0 ≤ sc.charIndex) (h1 : sc.charIndex ≤ (sc.charCount : Int)) :
    (applyOp sc op).charCount = sc.charCount
      ∧ 0 ≤ (applyOp sc op).charIndex
      ∧ (applyOp sc op).charIndex ≤ (sc.charCount : Int) := by
  have hadv : ∀ n : Nat, (advance sc (n : Int)).charCount = sc.charCount
      ∧ 0 ≤ (advance sc (n : Int)).charIndex
      ∧ (advance sc (n : Int)).charIndex ≤ (sc.charCount : Int) := fun n =>
    ⟨rfl, (advance_state sc n (by omega) h0).1, (advance_state sc n (by omega) h0).2⟩
  have hfin : ∀ sc2 : StringScanner,
      (sc2 = sc ∨ ∃ n : Nat, sc2 = advance sc (n : Int)) →
      sc2.charCount = sc.charCount ∧ 0 ≤ sc2.charIndex
        ∧ sc2.charIndex ≤ (sc.charCount : Int) := by
    rintro sc2 (rfl | ⟨n, rfl⟩)
    · exact ⟨rfl, h0, h1⟩
    · exact hadv n
  cases op with
  | advanceOp n =>
    have hn : (0 : Int) ≤ n := hok
    exact ⟨rfl, (advance_state sc n hn h0).1, (advance_state sc n hn h0).2⟩
  | resetOp n =>
    refine ⟨rfl, ?_, ?_⟩
    · show 0 ≤ (reset sc n).charIndex
      simp only [reset]
      split <;> omega
    · show (reset sc n).charIndex ≤ (sc.charCount : Int)
      simp only [reset]
      split <;> omega
  | peekOp n => exact ⟨rfl, h0, h1⟩
  | consumeOp n =>
    have hn : (0 : Int) ≤ n := hok
    exact ⟨rfl, (advance_state sc n hn h0).1, (advance_state sc n hn h0).2⟩
  | consumeMatchFnOp f =>
    obtain ⟨j, hj, hj1, hj2⟩ := consumeMatchFnLoop_spec sc f
    have h2 : (consumeMatchFn sc f).2 = { sc with charIndex := j } := by
      unfold consumeMatchFn
      dsimp only
      rw [hj]
      split <;> rfl
    show (consumeMatchFn sc f).2.charCount = sc.charCount
      ∧ 0 ≤ (consumeMatchFn sc f).2.charIndex
      ∧ (consumeMatchFn sc f).2.charIndex ≤ (sc.charCount : Int)
    rw [h2]
    refine ⟨rfl, ?_, ?_⟩ <;> (dsimp only; omega)
  | consumeStringOp L => exact hfin _ (consumeString_state sc L)
  | consumeStringFastOp L => exact hfin _ (consumeStringFast_state sc L)
  | consumeMatchOp r =>
    refine hfin _ ?_
    show (match consumeMatch sc r with | .ok p => p.2.1 | .error _ => sc) = sc
      ∨ ∃ n : Nat,
        (match consumeMatch sc r with | .ok p => p.2.1 | .error _ => sc)
          = advance sc (n : Int)
    cases hm : consumeMatch sc r with
    | error e => exact Or.inl rfl
    | ok p => exact consumeMatch_state sc r p.1 p.2.1 p.2.2 (by rw [hm])
  | consumeUntilMatchOp r =>
    refine hfin _ ?_
    show (match consumeUntilMatch sc r with | .ok p => p.2.1 | .error _ => sc) = sc
      ∨ ∃ n : Nat,
        (match consumeUntilMatch sc r with | .ok p => p.2.1 | .error _ => sc)
          = advance sc (n : Int)
    cases hm : consumeUntilMatch sc r with
    | error e => exact Or.inl rfl
    | ok p => exact consumeUntilMatch_state sc r p.1 p.2.1 p.2.2 (by rw [hm])
  | consumeUntilStringOp L => exact hfin _ (consumeUntilString_state sc L)

theorem flatten_drop_ne_nil (src : List Nat) {i : Nat}
    (hi : i < (strToChars src).length) :
    ((strToChars src).drop i).flatten ≠ [] := by
  rw [List.drop_eq_getElem_cons hi, List.flatten_cons]
  intro h0
  rw [List.append_eq_nil] at h0
  exact strToChars_ne_nil (List.getElem_mem hi) h0.1

theorem flatten_seg_ne_nil (src : List Nat) {i m : Nat}
    (hi : i < (strToChars src).length) (hm : 1 ≤ m) :
    (((strToChars src).drop i).take m).flatten ≠ [] := by
  rw [List.drop_eq_getElem_cons hi]
  cases m with
  | zero => omega
  | succ k =>
    rw [List.take_succ_cons, List.flatten_cons]
    intro h0
    rw [List.append_eq_nil] at h0
    exact strToChars_ne_nil (List.getElem_mem hi) h0.1

/-- C6 (amended): for every nonnegative count `c` and valid position `p`,
`peek(c)` performs no mutation (it is a pure function of the state in this
embedding), `consume(c)` returns exactly the string `peek(c)` returns in the
same state, and after `consume(c)` the position equals `p` plus the logical
character length of that returned string. -/
theorem claim6_peek_consume_duality (src : List Nat) (i : Nat) (c : Int)
    (hi : i ≤ (strToChars src).length) (hc : 0 ≤ c) :
    consume (scannerAt src i) c
      = (peek (scannerAt src i) c, advance (scannerAt src i) c)
    ∧ (advance (scannerAt src i) c).charIndex
      = (i : Int)
        + (charLength (scannerAt src i) (peek (scannerAt src i) c) : Int) := by
  refine ⟨rfl, ?_⟩
  rw [charLength_peek src i c hi hc, advance_scannerAt src i c hc, scannerAt_charIndex]
  omega

/-- Witness for C6: count 1 at position 0 of `"ab"`. -/
theorem claim6_peek_consume_duality_witness :
    consume (scannerAt [97, 98] 0) 1
      = (peek (scannerAt [97, 98] 0) 1, advance (scannerAt [97, 98] 0) 1)
    ∧ (advance (scannerAt [97, 98] 0) 1).charIndex
      = ((0 : Nat) : Int)
        + (charLength (scannerAt [97, 98] 0) (peek (scannerAt [97, 98] 0) 1) : Int) :=
  claim6_peek_consume_duality [97, 98] 0 1 (by decide) (by decide)

/-- C9 (amended): starting from a freshly constructed scanner, after any
sequence of operations in which `advance` and `consume` receive nonnegative
counts (`reset`, `peek` and the remaining operations may receive arbitrary
arguments), the position satisfies `0 ≤ position ≤ charCount`. -/
theorem claim9_position_invariant (src : List Nat) (ops : List ScanOp)
    (hops : ∀ op ∈ ops, opOK op) :
    0 ≤ (runOps (mkScanner src) ops).charIndex
      ∧ (runOps (mkScanner src) ops).charIndex
        ≤ ((runOps (mkScanner src) ops).charCount : Int) := by
  suffices h : ∀ (l : List ScanOp) (sc : StringScanner), (∀ op ∈ l, opOK op) →
      0 ≤ sc.charIndex → sc.charIndex ≤ (sc.charCount : Int) →
      0 ≤ (runOps sc l).charIndex
        ∧ (runOps sc l).charIndex ≤ ((runOps sc l).charCount : Int) by
    exact h ops (mkScanner src) hops (by rw [mkScanner_charIndex])
      (by rw [mkScanner_charIndex]; exact Int.natCast_nonneg _)
  intro l
  induction l with
  | nil => exact fun sc _ h0 h1 => ⟨h0, h1⟩
  | cons op rest ih =>
    intro sc hops2 h0 h1
    have hb := applyOp_bounds sc op (hops2 op (List.mem_cons_self _ _)) h0 h1
    have hrest := ih (applyOp sc op)
      (fun o ho => hops2 o (List.mem_cons_of_mem _ ho))
      hb.2.1 (by rw [hb.1]; exact hb.2.2)
    rw [runOps, List.foldl_cons]
    exact hrest

/-- Witness for C9: an `advance(1)` followed by a `reset(-5)` on `"ab"`. -/
theorem claim9_position_invariant_witness :
    0 ≤ (runOps (mkScanner [97, 98])
        [ScanOp.advanceOp 1, ScanOp.resetOp (-5)]).charIndex
    ∧ (runOps (mkScanner [97, 98])
        [ScanOp.advanceOp 1, ScanOp.resetOp (-5)]).charIndex
      ≤ ((runOps (mkScanner [97, 98])
        [ScanOp.advanceOp 1, ScanOp.resetOp (-5)]).charCount : Int) :=
  claim9_position_invariant [97, 98] [ScanOp.advanceOp 1, ScanOp.resetOp (-5)]
    (by
      intro op hop
      simp only [List.mem_cons, List.not_mem_nil, or_false] at hop
      rcases hop with rfl | rfl
      · show (0 : Int) ≤ 1
        norm_num
      · trivial)

/-- `consumeMatchFn` in terms of the loop's final index. -/
theorem consumeMatchFn_eq (sc : StringScanner) (f : List Nat → Bool) :
    ∃ j : Int, sc.charIndex ≤ j ∧ j ≤ max sc.charIndex (sc.charCount : Int)
      ∧ consumeMatchFn sc f =
        (if sc.charIndex < j then
          (jsSlice sc.string (jsGet sc.charsToBytes sc.charIndex)
            (jsGet sc.charsToBytes j), { sc with charIndex := j })
         else ([], { sc with charIndex := j })) := by
  obtain ⟨j, hj, h1, h2⟩ := consumeMatchFnLoop_spec sc f
  refine ⟨j, h1, h2, ?_⟩
  unfold consumeMatchFn
  dsimp only
  rw [hj]

/-- C8 (amended): in every valid scanner state (`0 ≤ position ≤ charCount`),
every consuming operation that returns the empty string leaves the position
unchanged, provided `consume` receives a nonnegative count. -/
theorem claim8_atomic_failure (src : List Nat) (i : Nat)
    (hi : i ≤ (strToChars src).length) :
    (∀ c : Int, 0 ≤ c → (consume (scannerAt src i) c).1 = [] →
        (consume (scannerAt src i) c).2.charIndex = (i : Int))
    ∧ (∀ r v sc2 r2, consumeMatch (scannerAt src i) r = .ok (v, sc2, r2) →
        v = [] → sc2.charIndex = (i : Int))
    ∧ (∀ f, (consumeMatchFn (scannerAt src i) f).1 = [] →
        (consumeMatchFn (scannerAt src i) f).2.charIndex = (i : Int))
    ∧ (∀ L, (consumeString (scannerAt src i) L).1 = [] →
        (consumeString (scannerAt src i) L).2.charIndex = (i : Int))
    ∧ (∀ L, (consumeStringFast (scannerAt src i) L).1 = [] →
        (consumeStringFast (scannerAt src i) L).2.charIndex = (i : Int))
    ∧ (∀ r v sc2 r2, consumeUntilMatch (scannerAt src i) r = .ok (v, sc2, r2) →
        v = [] → sc2.charIndex = (i : Int))
    ∧ (∀ L, (consumeUntilString (scannerAt src i) L).1 = [] →
        (consumeUntilString (scannerAt src i) L).2.charIndex = (i : Int)) := by
  have hA0 : (advance (scannerAt src i) (((0 : Nat)) : Int)).charIndex = (i : Int) := by
    simp only [advance, scannerAt_charIndex, scannerAt_charCount]
    omega
  have hCL0 : charLength (scannerAt src i) ([] : List Nat) = 0 := rfl
  refine ⟨?_, ?_, ?_, ?_, ?_, ?_, ?_⟩
  · intro c hc hp
    show (advance (scannerAt src i) c).charIndex = (i : Int)
    rw [advance_scannerAt src i c hc, scannerAt_charIndex]
    rw [show (consume (scannerAt src i) c).1 = peek (scannerAt src i) c from rfl,
      peek_scannerAt src i c hi hc] at hp
    have hmin : min (strToChars src).length (i + c.toNat) = i := by
      by_contra hne
      have hlt : i < (strToChars src).length := by omega
      have hm1 : 1 ≤ min (strToChars src).length (i + c.toNat) - i := by omega
      exact flatten_seg_ne_nil src hlt hm1 hp
    exact_mod_cast hmin
  · intro r v sc2 r2 h hv
    unfold consumeMatch at h
    cases hs : r.sticky
    · rw [hs] at h
      simp at h
    · rw [hs] at h
      simp only [Bool.not_true, Bool.false_eq_true, if_false] at h
      split at h
      · simp only [Except.ok.injEq, Prod.mk.injEq] at h
        rw [← h.2.1, scannerAt_charIndex]
      · split at h
        · simp only [Except.ok.injEq, Prod.mk.injEq] at h
          rw [← h.2.1, scannerAt_charIndex]
        · simp only [Except.ok.injEq, Prod.mk.injEq] at h
          rw [← h.2.1, h.1, hv, hCL0]
          exact hA0
  · intro f hres
    obtain ⟨j, hj1, hj2, heq⟩ := consumeMatchFn_eq (scannerAt src i) f
    rw [scannerAt_charIndex] at hj1
    rw [scannerAt_charIndex, scannerAt_charCount] at hj2
    rw [heq] at hres ⊢
    by_cases hij : ((i : Nat) : Int) < j
    · rw [if_pos (by rw [scannerAt_charIndex]; exact hij)] at hres ⊢
      exfalso
      dsimp only at hres
      obtain ⟨jn, rfl⟩ : ∃ jn : Nat, j = (jn : Int) := ⟨j.toNat, by omega⟩
      have hiltjn : i < jn := by exact_mod_cast hij
      have hjn : jn ≤ (strToChars src).length := by omega
      have hilt : i < (strToChars src).length := lt_of_lt_of_le hiltjn hjn
      rw [scannerAt_string, scannerAt_charsToBytes, scannerAt_charIndex,
        jsGet_charsToBytes_of_lt src hilt] at hres
      by_cases hjcc : jn < (strToChars src).length
      · rw [jsGet_charsToBytes_of_lt src hjcc,
          scanner_slice_seg src i jn (le_of_lt hiltjn)] at hres
        exact flatten_seg_ne_nil src hilt (by omega) hres
      · rw [jsGet_charsToBytes_of_ge src (by omega),
          scanner_slice_seg_none src i] at hres
        exact flatten_drop_ne_nil src hilt hres
    · rw [if_neg (by rw [scannerAt_charIndex]; exact hij)] at hres ⊢
      dsimp only
      omega
  · intro L hres
    unfold consumeString at hres ⊢
    rcases consumeStringFast_shape (scannerAt src i) L with ⟨hf, hL⟩ | ⟨hf, hL⟩ | hf <;>
      rw [hf] at hres ⊢ <;> dsimp only at hres ⊢
    · rw [if_pos (by simpa [bne_iff_ne] using hL)] at hres
      exact absurd hres hL
    · rw [if_pos (by simpa [bne_iff_ne] using hL)] at hres
      exact absurd hres hL
    · rw [if_neg (by simp)] at hres ⊢
      cases hmb : (scannerAt src i).multiByteMode
      · rw [if_pos (by
          simp only [scannerAt_multiByteMode, bne_eq_false_iff_eq] at hmb
          simp [hmb])] at hres ⊢
        exact scannerAt_charIndex src i
      · rw [if_neg (by
          simp only [scannerAt_multiByteMode, bne_iff_ne] at hmb
          simp [hmb])] at hres ⊢
        by_cases hcond : (charLength (scannerAt src i) L != L.length
            && (L == peek (scannerAt src i) ((charLength (scannerAt src i) L : Nat) : Int)))
            = true
        · rw [if_pos hcond] at hres ⊢
          dsimp only at hres
          subst hres
          rw [hCL0] at hcond
          simp at hcond
        · rw [if_neg hcond] at hres ⊢
          exact scannerAt_charIndex src i
  · intro L hres
    rcases consumeStringFast_shape (scannerAt src i) L with ⟨hf, hL⟩ | ⟨hf, hL⟩ | hf <;>
      rw [hf] at hres ⊢
    · exact absurd hres hL
    · exact absurd hres hL
    · exact scannerAt_charIndex src i
  · intro r v sc2 r2 h hv
    unfold consumeUntilMatch at h
    cases hg : r.globalFlag
    · rw [hg] at h
      simp at h
    · rw [hg] at h
      simp only [Bool.not_true, Bool.false_eq_true, if_false] at h
      split at h
      · simp only [Except.ok.injEq, Prod.mk.injEq] at h
        rw [← h.2.1, scannerAt_charIndex]
      · split at h
        · simp only [Except.ok.injEq, Prod.mk.injEq] at h
          rw [← h.2.1, scannerAt_charIndex]
        · simp only [Except.ok.injEq, Prod.mk.injEq] at h
          rw [← h.2.1, h.1, hv, hCL0]
          exact hA0
  · intro L hres
    unfold consumeUntilString at hres ⊢
    simp only [scannerAt_string, scannerAt_charsToBytes, scannerAt_charIndex]
      at hres ⊢
    by_cases hcond : jsIndexOf src L
        ((jsGet (mkScanner src).charsToBytes ((i : Nat) : Int)).getD 0) ≤ 0
    · rw [if_pos hcond] at hres ⊢
      exact scannerAt_charIndex src i
    · rw [if_neg hcond] at hres ⊢
      dsimp only at hres ⊢
      rw [hres, hCL0]
      exact hA0

/-- Witness for C8: `consumeUntilString` with a missing search string on
`"ab"` at position 0 returns empty and keeps the position at 0. -/
theorem claim8_atomic_failure_witness :
    (consumeUntilString (scannerAt [97, 98] 0) [122]).2.charIndex
      = ((0 : Nat) : Int) :=
  (claim8_atomic_failure [97, 98] 0 (by decide)).2.2.2.2.2.2 [122] (by decide)

end ParseXml
